import Mathlib

/-!
Verification development for the `tomly` repository.

`tomly` is a convenience layer over an external TOML codec (`rtoml`): it adds
`TomlDict`, a dictionary variant with attribute-style access, nested path
helpers and flattening, plus `load`/`loads`/`dump`/`dumps` helpers that
normalize input and output sources (paths, text streams, binary streams, raw
strings). The actual TOML grammar parsing and serialization is delegated to
the external codec, so the codec itself (tokenizing, document building, the
serializer, and the `none_value` sentinel substitution of the document
facade) is modelled here from the specification, while the wrapper class and
the source/destination dispatch are embedded directly from
`src/tomly/__init__.py`.
-/

namespace Tomly

/-! ## Codec value model

Modelled from the spec: the shared Value model of the TOML codec (spec §3):
strings, integers, booleans, arrays, tables (insertion-ordered association
lists) and the internal `Null` bridging marker produced by the document
facade's `none_value` convention.  Float and date-time kinds are omitted:
no claim exercises them. -/

inductive Value where
  | str (s : String)
  | int (n : Int)
  | bool (b : Bool)
  | null
  | arr (xs : List Value)
  | table (kvs : List (String × Value))

/-- A TOML table: a key/value association list in insertion order. -/
abbrev Table := List (String × Value)

mutual

/-- Modelled from the spec: the parse-side `none_value` walk of the document
facade (spec §4.4): convert every scalar String value exactly equal to the
configured sentinel into the internal Null marker. -/
def substStrToNull (s : String) : Value → Value
  | .str t => if t = s then .null else .str t
  | .int n => .int n
  | .bool b => .bool b
  | .null => .null
  | .arr xs => .arr (substStrToNullList s xs)
  | .table kvs => .table (substStrToNullFields s kvs)

def substStrToNullList (s : String) : List Value → List Value
  | [] => []
  | v :: vs => substStrToNull s v :: substStrToNullList s vs

def substStrToNullFields (s : String) : List (String × Value) → List (String × Value)
  | [] => []
  | (k, v) :: kvs => (k, substStrToNull s v) :: substStrToNullFields s kvs

end

mutual

/-- Modelled from the spec: the render-side `none_value` walk of the document
facade (spec §4.4): convert every internal Null marker into a String node
carrying the configured sentinel. -/
def substNullToStr (s : String) : Value → Value
  | .str t => .str t
  | .int n => .int n
  | .bool b => .bool b
  | .null => .str s
  | .arr xs => .arr (substNullToStrList s xs)
  | .table kvs => .table (substNullToStrFields s kvs)

def substNullToStrList (s : String) : List Value → List Value
  | [] => []
  | v :: vs => substNullToStr s v :: substNullToStrList s vs

def substNullToStrFields (s : String) : List (String × Value) → List (String × Value)
  | [] => []
  | (k, v) :: kvs => (k, substNullToStr s v) :: substNullToStrFields s kvs

end

/-- No String node of the value equals `s`, so the parse-side sentinel
substitution cannot capture an ordinary string of the tree. -/
def SentinelFree (s : String) : Value → Prop
  | .str t => t ≠ s
  | .int _ => True
  | .bool _ => True
  | .null => True
  | .arr xs => ∀ x ∈ xs, SentinelFree s x
  | .table kvs => ∀ kv ∈ kvs, SentinelFree s kv.2
decreasing_by
  · have := List.sizeOf_lt_of_mem (by assumption)
    simp
    omega
  · rename_i hkv
    have h1 := List.sizeOf_lt_of_mem hkv
    have h2 : sizeOf kv.2 < sizeOf kv := by
      obtain ⟨a, b⟩ := kv
      simp
    simp
    omega

theorem substStrToNullList_eq (s : String) (xs : List Value) :
    substStrToNullList s xs = xs.map (substStrToNull s) := by
  induction xs with
  | nil => rfl
  | cons v vs ih => simp [substStrToNullList, ih]

theorem substStrToNullFields_eq (s : String) (kvs : List (String × Value)) :
    substStrToNullFields s kvs = kvs.map (fun kv => (kv.1, substStrToNull s kv.2)) := by
  induction kvs with
  | nil => rfl
  | cons kv kvs ih =>
    obtain ⟨k, v⟩ := kv
    simp [substStrToNullFields, ih]

theorem substNullToStrList_eq (s : String) (xs : List Value) :
    substNullToStrList s xs = xs.map (substNullToStr s) := by
  induction xs with
  | nil => rfl
  | cons v vs ih => simp [substNullToStrList, ih]

theorem substNullToStrFields_eq (s : String) (kvs : List (String × Value)) :
    substNullToStrFields s kvs = kvs.map (fun kv => (kv.1, substNullToStr s kv.2)) := by
  induction kvs with
  | nil => rfl
  | cons kv kvs ih =>
    obtain ⟨k, v⟩ := kv
    simp [substNullToStrFields, ih]

theorem substStrToNull_arr (s : String) (xs : List Value) :
    substStrToNull s (.arr xs) = .arr (xs.map (substStrToNull s)) := by
  rw [substStrToNull, substStrToNullList_eq]

theorem substStrToNull_table (s : String) (kvs : List (String × Value)) :
    substStrToNull s (.table kvs)
      = .table (kvs.map (fun kv => (kv.1, substStrToNull s kv.2))) := by
  rw [substStrToNull, substStrToNullFields_eq]

theorem substNullToStr_arr (s : String) (xs : List Value) :
    substNullToStr s (.arr xs) = .arr (xs.map (substNullToStr s)) := by
  rw [substNullToStr, substNullToStrList_eq]

theorem substNullToStr_table (s : String) (kvs : List (String × Value)) :
    substNullToStr s (.table kvs)
      = .table (kvs.map (fun kv => (kv.1, substNullToStr s kv.2))) := by
  rw [substNullToStr, substNullToStrFields_eq]

/-- Substituting the sentinel back after substituting Null markers out
recovers the original tree, provided no ordinary String node of the tree
already equals the sentinel. -/
theorem substCancel (s : String) (v : Value) (h : SentinelFree s v) :
    substStrToNull s (substNullToStr s v) = v := by
  match v with
  | .str t =>
    rw [SentinelFree] at h
    simp only [substNullToStr, substStrToNull]
    simp [h]
  | .int n => simp only [substNullToStr, substStrToNull]
  | .bool b => simp only [substNullToStr, substStrToNull]
  | .null =>
    simp only [substNullToStr, substStrToNull]
    simp
  | .arr xs =>
    rw [SentinelFree] at h
    rw [substNullToStr_arr, substStrToNull_arr, List.map_map]
    have hpt : ∀ x ∈ xs, (substStrToNull s ∘ substNullToStr s) x = x := by
      intro x hx
      exact substCancel s x (h x hx)
    rw [List.map_congr_left hpt]
    simp
  | .table kvs =>
    rw [SentinelFree] at h
    rw [substNullToStr_table, substStrToNull_table, List.map_map]
    have hpt : ∀ kv ∈ kvs,
        ((fun kv => (kv.1, substStrToNull s kv.2)) ∘
          (fun kv => (kv.1, substNullToStr s kv.2))) kv = kv := by
      intro kv hkv
      have := substCancel s kv.2 (h kv hkv)
      simp [this]
    rw [List.map_congr_left hpt]
    simp
decreasing_by
  · have := List.sizeOf_lt_of_mem hx
    simp
    omega
  · have h1 := List.sizeOf_lt_of_mem hkv
    have h2 : sizeOf kv.2 < sizeOf kv := by
      obtain ⟨a, b⟩ := kv
      simp
    simp
    omega

/-! ## Character-level text utilities

The codec is modelled over explicit character lists so every concrete
document evaluates by kernel reduction. -/

def charsOf (s : String) : List Char := s.data

def strOf (cs : List Char) : String := String.mk cs

def isTomlWS (c : Char) : Bool := c = ' ' || c = '\t' || c = '\r'

def trimChars (cs : List Char) : List Char :=
  ((cs.dropWhile isTomlWS).reverse.dropWhile isTomlWS).reverse

def splitChar (sep : Char) : List Char → List (List Char)
  | [] => [[]]
  | c :: rest =>
    if c = sep then [] :: splitChar sep rest
    else
      match splitChar sep rest with
      | [] => [[c]]
      | g :: gs => (c :: g) :: gs

def splitFirst (sep : Char) : List Char → Option (List Char × List Char)
  | [] => none
  | c :: rest =>
    if c = sep then some ([], rest)
    else (splitFirst sep rest).map (fun pr => (c :: pr.1, pr.2))

def joinSep (sep : List Char) : List (List Char) → List Char
  | [] => []
  | [x] => x
  | x :: y :: rest => x ++ sep ++ joinSep sep (y :: rest)

def digitVal (c : Char) : Option Nat :=
  if c.isDigit then some (c.toNat - 48) else none

def parseNatAux : List Char → Nat → Option Nat
  | [], acc => some acc
  | c :: rest, acc =>
    match digitVal c with
    | some d => parseNatAux rest (acc * 10 + d)
    | none => none

def parseNatChars (cs : List Char) : Option Nat :=
  match cs with
  | [] => none
  | _ => parseNatAux cs 0

def parseIntChars : List Char → Option Int
  | '-' :: rest => (parseNatChars rest).map (fun n => -(n : Int))
  | '+' :: rest => (parseNatChars rest).map (fun n => (n : Int))
  | cs => (parseNatChars cs).map (fun n => (n : Int))

def unescapeChars : List Char → Option (List Char)
  | [] => some []
  | ['\\'] => none
  | '\\' :: c :: rest =>
    (match c with
     | 'n' => (unescapeChars rest).map (fun l => '\n' :: l)
     | 't' => (unescapeChars rest).map (fun l => '\t' :: l)
     | 'r' => (unescapeChars rest).map (fun l => '\r' :: l)
     | '\\' => (unescapeChars rest).map (fun l => '\\' :: l)
     | '"' => (unescapeChars rest).map (fun l => '"' :: l)
     | _ => none)
  | c :: rest => (unescapeChars rest).map (fun l => c :: l)

def escapeChar (c : Char) : List Char :=
  if c = '"' then ['\\', '"']
  else if c = '\\' then ['\\', '\\']
  else if c = '\n' then ['\\', 'n']
  else if c = '\t' then ['\\', 't']
  else if c = '\r' then ['\\', 'r']
  else [c]

def escapeChars (cs : List Char) : List Char :=
  cs.foldr (fun c acc => escapeChar c ++ acc) []

def natDigitsAux : Nat → Nat → List Char
  | 0, _ => []
  | fuel + 1, n =>
    if n < 10 then [Char.ofNat (48 + n)]
    else natDigitsAux fuel (n / 10) ++ [Char.ofNat (48 + n % 10)]

def natToChars (n : Nat) : List Char := natDigitsAux (n + 1) n

def intToChars (n : Int) : List Char :=
  if n < 0 then '-' :: natToChars n.natAbs else natToChars n.toNat

/-! ## Spec-modelled TOML codec

Modelled from the spec: the parser (spec §4.2) consumes a document line by
line, maintaining a current-table cursor updated by `[table.path]` headers,
and checks key uniqueness at the point of insertion (duplicate key or
duplicate table header raises ParseError immediately, no partial tree is
returned).  The serializer (spec §4.3) emits `key = value` statements and
bracketed `[a.b]` headers for nested tables, with pretty mode adding
blank-line separation between sections.  Array-of-tables headers, inline
tables, date-times, floats and multi-line strings are not modelled: no claim
exercises them. -/

inductive ParseError where
  | duplicateKey (k : String)
  | duplicateTable (path : List String)
  | typeConflict (k : String)
  | badLine (l : String)

inductive SerializeError where
  | nullNotRepresentable
  | unsupportedValue

def dlookup : Table → String → Option Value
  | [], _ => none
  | kv :: rest, k => if kv.1 = k then some kv.2 else dlookup rest k

def dreplace (t : Table) (k : String) (v : Value) : Table :=
  t.map (fun kv => if kv.1 = k then (k, v) else kv)

/-- Modelled from the spec: insertion of a key/value pair into the table at
`path`; key uniqueness is checked at the point of insertion (spec §4.2). -/
def insertAt (t : Table) (path : List String) (k : String) (v : Value) :
    Except ParseError Table :=
  match path with
  | [] =>
    match dlookup t k with
    | some _ => .error (.duplicateKey k)
    | none => .ok (t ++ [(k, v)])
  | p :: rest =>
    match dlookup t p with
    | some (.table sub) => (insertAt sub rest k v).map (fun s2 => dreplace t p (.table s2))
    | some _ => .error (.typeConflict p)
    | none => (insertAt [] rest k v).map (fun s2 => t ++ [(p, .table s2)])

/-- Modelled from the spec: `[path]` header navigation, creating intermediate
tables implicitly; redeclaring an intermediate segment as a non-table is an
error (spec §4.2). -/
def mkTableAt (t : Table) (path : List String) : Except ParseError Table :=
  match path with
  | [] => .ok t
  | p :: rest =>
    match dlookup t p with
    | some (.table sub) => (mkTableAt sub rest).map (fun s2 => dreplace t p (.table s2))
    | some _ => .error (.typeConflict p)
    | none => (mkTableAt [] rest).map (fun s2 => t ++ [(p, .table s2)])

def parseScalarChars (cs : List Char) : Option Value :=
  match cs with
  | [] => none
  | '"' :: rest =>
    (match rest.reverse with
     | '"' :: midRev => (unescapeChars midRev.reverse).map (fun l => .str (strOf l))
     | _ => none)
  | _ =>
    if cs = charsOf "true" then some (.bool true)
    else if cs = charsOf "false" then some (.bool false)
    else (parseIntChars cs).map .int

def parseValueChars (cs : List Char) : Option Value :=
  match cs with
  | '[' :: rest =>
    (match rest.reverse with
     | ']' :: midRev =>
       let mid := trimChars midRev.reverse
       if mid = [] then some (.arr [])
       else ((splitChar ',' mid).map trimChars).mapM parseScalarChars |>.map .arr
     | _ => none)
  | _ => parseScalarChars cs

structure PState where
  root : Table
  current : List String
  declared : List (List String)

def headerPath (cs : List Char) : List String :=
  ((splitChar '.' cs).map trimChars).map strOf

def parseLine (st : PState) (lineChars : List Char) : Except ParseError PState :=
  match trimChars lineChars with
  | [] => .ok st
  | '#' :: _ => .ok st
  | '[' :: '[' :: l => .error (.badLine (strOf ('[' :: '[' :: l)))
  | '[' :: rest =>
    (match rest.reverse with
     | ']' :: midRev =>
       let path := headerPath (trimChars midRev.reverse)
       if st.declared.contains path then .error (.duplicateTable path)
       else (mkTableAt st.root path).map (fun r => ⟨r, path, path :: st.declared⟩)
     | _ => .error (.badLine (strOf ('[' :: rest))))
  | l =>
    match splitFirst '=' l with
    | some (ktxt, vtxt) =>
      let key := strOf (trimChars ktxt)
      (match parseValueChars (trimChars vtxt) with
       | some v => (insertAt st.root st.current key v).map (fun r => ⟨r, st.current, st.declared⟩)
       | none => .error (.badLine (strOf l)))
    | none => .error (.badLine (strOf l))

def parseAll (st : PState) : List (List Char) → Except ParseError PState
  | [] => .ok st
  | l :: rest =>
    match parseLine st l with
    | .ok st2 => parseAll st2 rest
    | .error e => .error e

/-- Modelled from the spec: the codec's parse entry point — tokenize the
source into statements and build the root table (spec §4.2, §6). -/
def rtomlParse (src : String) : Except ParseError Table :=
  (parseAll ⟨[], [], []⟩ (splitChar '\n' (charsOf src))).map PState.root

mutual

def serScalar : Value → Except SerializeError (List Char)
  | .str s => .ok ('"' :: (escapeChars (charsOf s) ++ ['"']))
  | .int n => .ok (intToChars n)
  | .bool b => .ok (if b then charsOf "true" else charsOf "false")
  | .null => .error .nullNotRepresentable
  | .arr xs =>
    (serScalarList xs).map (fun parts => '[' :: (joinSep (charsOf ", ") parts ++ [']']))
  | .table _ => .error .unsupportedValue

def serScalarList : List Value → Except SerializeError (List (List Char))
  | [] => .ok []
  | v :: vs => do
    let c ← serScalar v
    let cs ← serScalarList vs
    .ok (c :: cs)

end

def isTableVal : Value → Bool
  | .table _ => true
  | _ => false

def serScalarLines : Table → Except SerializeError (List (List Char))
  | [] => .ok []
  | (k, v) :: rest =>
    if isTableVal v then serScalarLines rest
    else do
      let sv ← serScalar v
      let ls ← serScalarLines rest
      .ok ((charsOf k ++ (charsOf " = " ++ sv)) :: ls)

mutual

def serValueSection (k : String) (v : Value) (path : List String) (pretty : Bool) :
    Except SerializeError (List (List Char)) :=
  match v with
  | .table sub => do
    let innerScalars ← serScalarLines sub
    let innerSections ← serSections sub (path ++ [k]) pretty
    let header := '[' :: (joinSep ['.'] ((path ++ [k]).map charsOf) ++ [']'])
    .ok ((if pretty then [[], header] else [header]) ++ innerScalars ++ innerSections)
  | _ => .ok []

def serSections : Table → List String → Bool → Except SerializeError (List (List Char))
  | [], _, _ => .ok []
  | (k, v) :: rest, path, pretty => do
    let here ← serValueSection k v path pretty
    let restLs ← serSections rest path pretty
    .ok (here ++ restLs)

end

def serTableLines (t : Table) (path : List String) (pretty : Bool) :
    Except SerializeError (List (List Char)) := do
  let s ← serScalarLines t
  let secs ← serSections t path pretty
  .ok (s ++ secs)

/-- Modelled from the spec: the codec's serialize entry point (spec §4.3) —
one statement per line, nested tables as bracketed headers, pretty mode
adding blank-line separation between table sections. -/
def rtomlSerialize (t : Table) (pretty : Bool) : Except SerializeError String :=
  (serTableLines t [] pretty).map (fun ls => strOf (joinSep ['\n'] ls ++ ['\n']))

def substTableStrToNull (s : String) (t : Table) : Table :=
  t.map (fun kv => (kv.1, substStrToNull s kv.2))

def substTableNullToStr (s : String) (t : Table) : Table :=
  t.map (fun kv => (kv.1, substNullToStr s kv.2))

/-- Modelled from the spec: `parseDocument` (spec §4.4) — run the parser,
then, only when a sentinel is configured, convert every String value equal
to it into the internal Null marker. -/
def rtomlLoads (toml : String) (noneValue : Option String) : Except ParseError Table :=
  match noneValue with
  | none => rtomlParse toml
  | some s => (rtomlParse toml).map (substTableStrToNull s)

/-- Embeds `tomly.loads` (src/tomly/__init__.py:170-184): delegate to the
codec's parse entry with the given `none_value`, which defaults to
unconfigured. -/
def loads (toml : String) (noneValue : Option String := none) : Except ParseError Table :=
  rtomlLoads toml noneValue

/-- Modelled from the spec: `renderDocument` (spec §4.4) — substitute every
internal Null marker with the configured sentinel string and serialize; with
no sentinel configured, an internal Null is a hard serializer error. -/
def rtomlDumps (obj : Table) (pretty : Bool) (noneValue : Option String) :
    Except SerializeError String :=
  match noneValue with
  | none => rtomlSerialize obj pretty
  | some s => rtomlSerialize (substTableNullToStr s obj) pretty

/-- Embeds `tomly.dumps` (src/tomly/__init__.py:223-239): delegate to the
codec's serialize entry; `none_value` defaults to `"null"`. -/
def dumps (obj : Table) (pretty : Bool := false) (noneValue : Option String := some "null") :
    Except SerializeError String :=
  rtomlDumps obj pretty noneValue

/-! ## Text encodings and source/destination dispatch

`load` and `dump` normalize their input/output across file paths, text
streams, binary streams and raw strings.  Byte decoding/encoding is modelled
by an `Encoding` record; UTF-8, the source's default `encoding="utf-8"`, is
implemented concretely. -/

def utf8EncodeChar (c : Char) : List Nat :=
  let n := c.toNat
  if n < 128 then [n]
  else if n < 2048 then [192 + n / 64, 128 + n % 64]
  else if n < 65536 then [224 + n / 4096, 128 + (n / 64) % 64, 128 + n % 64]
  else [240 + n / 262144, 128 + (n / 4096) % 64, 128 + (n / 64) % 64, 128 + n % 64]

def utf8Encode (s : String) : List Nat :=
  s.data.foldr (fun c acc => utf8EncodeChar c ++ acc) []

def isContByte (b : Nat) : Bool := 128 ≤ b && b < 192

def utf8DecodeChars : List Nat → Option (List Char)
  | [] => some []
  | b :: rest =>
    if b < 128 then (utf8DecodeChars rest).map (fun l => Char.ofNat b :: l)
    else if b < 192 then none
    else if b < 224 then
      match rest with
      | b2 :: rest2 =>
        if isContByte b2 then
          let n := (b - 192) * 64 + (b2 - 128)
          if 128 ≤ n then (utf8DecodeChars rest2).map (fun l => Char.ofNat n :: l) else none
        else none
      | [] => none
    else if b < 240 then
      match rest with
      | b2 :: b3 :: rest3 =>
        if isContByte b2 && isContByte b3 then
          let n := (b - 224) * 4096 + ((b2 - 128) * 64 + (b3 - 128))
          if 2048 ≤ n && (n < 55296 || 57344 ≤ n) then
            (utf8DecodeChars rest3).map (fun l => Char.ofNat n :: l)
          else none
        else none
      | _ => none
    else if b < 248 then
      match rest with
      | b2 :: b3 :: b4 :: rest4 =>
        if isContByte b2 && isContByte b3 && isContByte b4 then
          let n := (b - 240) * 262144 + ((b2 - 128) * 4096 + ((b3 - 128) * 64 + (b4 - 128)))
          if 65536 ≤ n && n < 1114112 then
            (utf8DecodeChars rest4).map (fun l => Char.ofNat n :: l)
          else none
        else none
      | _ => none
    else none

def utf8Decode (bs : List Nat) : Option String := (utf8DecodeChars bs).map strOf

/-- A Python text codec: `str.encode` / `bytes.decode` for one encoding
name.  Decoding is partial (invalid byte sequences raise in Python). -/
structure Encoding where
  encode : String → List Nat
  decode : List Nat → Option String

def utf8Encoding : Encoding := ⟨utf8Encode, utf8Decode⟩

/-- The TOML source argument of `tomly.load`: a filesystem path (standing
for the bytes of the file it names), a text stream, a binary stream, a raw
TOML string, or a raw bytes buffer. -/
inductive TomlSource where
  | path (fileBytes : List Nat)
  | textStream (text : String)
  | binaryStream (bytes : List Nat)
  | rawStr (text : String)
  | rawBytes (bytes : List Nat)

inductive LoadError where
  | parse (e : ParseError)
  | decodeFailure
  | invalidTomlType

/-- Embeds `tomly.load` (src/tomly/__init__.py:187-220): a `Path` is read and
decoded with `encoding`, a text stream is read as-is, a binary stream is read
and decoded with `encoding`, and anything else is handed to `loads`
unchanged — so a raw `str` parses directly, while a raw `bytes` buffer
reaches the codec undecoded and is rejected there (`rtoml.loads` accepts
only `str`). -/
def load (toml : TomlSource) (noneValue : Option String := none)
    (encoding : Encoding := utf8Encoding) : Except LoadError Table :=
  match toml with
  | .path bs =>
    (match encoding.decode bs with
     | some text => (loads text noneValue).mapError .parse
     | none => .error .decodeFailure)
  | .textStream text => (loads text noneValue).mapError .parse
  | .binaryStream bs =>
    (match encoding.decode bs with
     | some text => (loads text noneValue).mapError .parse
     | none => .error .decodeFailure)
  | .rawStr text => (loads text noneValue).mapError .parse
  | .rawBytes _ => .error .invalidTomlType

/-- The destination argument of `tomly.dump`. -/
inductive Dest where
  | path
  | textStream
  | binaryStream
  | other

/-- What a `dump` call writes to its destination. -/
inductive Written where
  | text (s : String)
  | bytes (bs : List Nat)

inductive DumpError where
  | ser (e : SerializeError)
  | invalidFileType

/-- Embeds `tomly.dump` (src/tomly/__init__.py:242-284): serialize first,
then write: `Path.write_text` and text-stream `write` return the number of
characters written, a binary stream receives `s.encode(encoding)` and its
`write` returns the number of bytes written; any other destination type
raises `TypeError`. -/
def dump (obj : Table) (file : Dest) (pretty : Bool := false)
    (noneValue : Option String := some "null") (encoding : Encoding := utf8Encoding) :
    Except DumpError (Nat × Written) :=
  match dumps obj pretty noneValue with
  | .error e => .error (.ser e)
  | .ok s =>
    match file with
    | .path => .ok (s.length, .text s)
    | .textStream => .ok (s.length, .text s)
    | .binaryStream => .ok ((encoding.encode s).length, .bytes (encoding.encode s))
    | .other => .error .invalidFileType

/-! ## The `TomlDict` wrapper

Embeds the `TomlDict` class (src/tomly/__init__.py:19-167).  Python values
are modelled by `PyVal`; a plain `dict` (`pdict`) is distinguished from a
`TomlDict` instance (`tdict`), both carrying their items as insertion-ordered
association lists (Python 3.7+ dict semantics). -/

inductive PyVal where
  | pstr (s : String)
  | pint (n : Int)
  | pbool (b : Bool)
  | pnone
  | plist (xs : List PyVal)
  | pdict (kvs : List (String × PyVal))
  | tdict (kvs : List (String × PyVal))

mutual

/-- Embeds `TomlDict._wrap` (src/tomly/__init__.py:42-51): a plain dict is
rebuilt as a `TomlDict` (whose `__init__` wraps each value), an existing
`TomlDict` is returned unchanged, a list is wrapped elementwise, everything
else passes through. -/
def wrap : PyVal → PyVal
  | .pdict kvs => .tdict (wrapFields kvs)
  | .tdict kvs => .tdict kvs
  | .plist xs => .plist (wrapList xs)
  | v => v

def wrapList : List PyVal → List PyVal
  | [] => []
  | v :: vs => wrap v :: wrapList vs

def wrapFields : List (String × PyVal) → List (String × PyVal)
  | [] => []
  | (k, v) :: kvs => (k, wrap v) :: wrapFields kvs

end

/-- Embeds `TomlDict.__init__` (src/tomly/__init__.py:33-40) on a plain
dict's items: store them, wrapping every value. -/
def tdictInit (kvs : List (String × PyVal)) : PyVal := .tdict (wrapFields kvs)

mutual

/-- Embeds `TomlDict._unwrap` (src/tomly/__init__.py:53-62): a `TomlDict`
becomes a plain dict of unwrapped values, a list is unwrapped elementwise,
everything else — including a plain dict — is returned unchanged. -/
def unwrap : PyVal → PyVal
  | .tdict kvs => .pdict (unwrapFields kvs)
  | .plist xs => .plist (unwrapList xs)
  | v => v

def unwrapList : List PyVal → List PyVal
  | [] => []
  | v :: vs => unwrap v :: unwrapList vs

def unwrapFields : List (String × PyVal) → List (String × PyVal)
  | [] => []
  | (k, v) :: kvs => (k, unwrap v) :: unwrapFields kvs

end

/-- Embeds `TomlDict.to_dict` (src/tomly/__init__.py:140-144) on the
receiver's items. -/
def toDict (kvs : List (String × PyVal)) : PyVal := unwrap (.tdict kvs)

/-- Python dict lookup on an association list. -/
def plookup : List (String × PyVal) → String → Option PyVal
  | [], _ => none
  | kv :: rest, k => if kv.1 = k then some kv.2 else plookup rest k

/-- Python dict assignment: replace in place when the key exists, append
otherwise. -/
def pset : List (String × PyVal) → String → PyVal → List (String × PyVal)
  | [], k, v => [(k, v)]
  | kv :: rest, k, v => if kv.1 = k then (k, v) :: rest else kv :: pset rest k v

/-- Embeds `TomlDict.__setitem__` (src/tomly/__init__.py:91-95): every
insertion wraps the incoming value. -/
def tdictSetitem (kvs : List (String × PyVal)) (k : String) (v : PyVal) :
    List (String × PyVal) :=
  pset kvs k (wrap v)

def startsWithUnderscore (k : String) : Bool :=
  match k.data with
  | c :: _ => c = '_'
  | [] => false

inductive SetAttrResult where
  | privateAttr
  | dict (kvs : List (String × PyVal))

/-- Embeds `TomlDict.__setattr__` (src/tomly/__init__.py:73-80): names
starting with an underscore are stored as object attributes, anything else
goes through `__setitem__`. -/
def tdictSetattr (kvs : List (String × PyVal)) (k : String) (v : PyVal) : SetAttrResult :=
  if startsWithUnderscore k then .privateAttr else .dict (tdictSetitem kvs k v)

def pyIsDict : PyVal → Bool
  | .pdict _ => true
  | .tdict _ => true
  | _ => false

def pyFields : PyVal → List (String × PyVal)
  | .pdict kvs => kvs
  | .tdict kvs => kvs
  | _ => []

/-- Embeds the loop of `TomlDict.get_nested` (src/tomly/__init__.py:97-109):
walk the key sequence, stepping only through dicts that contain the key, and
return the default as soon as a step fails. -/
def getNestedGo (default : PyVal) : PyVal → List String → PyVal
  | current, [] => current
  | current, k :: ks =>
    if pyIsDict current then
      match plookup (pyFields current) k with
      | some v => getNestedGo default v ks
      | none => default
    else default

/-- If `sep` is a leading pattern of `cs`, the remaining characters. -/
def stripSep : List Char → List Char → Option (List Char)
  | [], cs => some cs
  | _ :: _, [] => none
  | s :: ss, c :: cs => if c = s then stripSep ss cs else none

def splitSubAux (sep : List Char) : Nat → List Char → List (List Char)
  | 0, cs => [cs]
  | fuel + 1, cs =>
    match cs with
    | [] => [[]]
    | c :: cs2 =>
      match stripSep sep cs with
      | some rest => [] :: splitSubAux sep fuel rest
      | none =>
        match splitSubAux sep fuel cs2 with
        | [] => [[c]]
        | g :: gs => (c :: g) :: gs

/-- Python `str.split(sep)` for a non-empty separator: leftmost
non-overlapping occurrences.  (Python raises for an empty separator; that
case is modelled as returning the whole string.) -/
def pySplit (s : String) (sep : String) : List String :=
  match charsOf sep with
  | [] => [s]
  | c :: cs => ((splitSubAux (c :: cs) (charsOf s).length (charsOf s)).map strOf)

/-- Embeds `TomlDict.set_nested` (src/tomly/__init__.py:111-122) on a key
sequence.  `isT` records whether the current dict is a `TomlDict` (whose
`__setitem__` wraps) or a plain dict (whose assignment does not).  An empty
key sequence raises `IndexError` (`keys[-1]`), modelled as `none`. -/
def setNestedGo (isT : Bool) (kvs : List (String × PyVal)) :
    List String → PyVal → Option (List (String × PyVal))
  | [], _ => none
  | [k], v => some (if isT then tdictSetitem kvs k v else pset kvs k v)
  | k :: k2 :: rest, v =>
    match plookup kvs k with
    | some (.pdict ckvs) =>
      (setNestedGo false ckvs (k2 :: rest) v).map (fun c2 => pset kvs k (.pdict c2))
    | some (.tdict ckvs) =>
      (setNestedGo true ckvs (k2 :: rest) v).map (fun c2 => pset kvs k (.tdict c2))
    | _ =>
      (setNestedGo true [] (k2 :: rest) v).map (fun c2 =>
        if isT then tdictSetitem kvs k (.tdict c2) else pset kvs k (.tdict c2))

/-- `TomlDict.set_nested` on the receiver (a `TomlDict`) with a key list. -/
def setNestedKeys (kvs : List (String × PyVal)) (path : List String) (v : PyVal) :
    Option (List (String × PyVal)) :=
  setNestedGo true kvs path v

/-- `TomlDict.get_nested` on the receiver with a key list. -/
def getNestedKeys (kvs : List (String × PyVal)) (path : List String)
    (default : PyVal := .pnone) : PyVal :=
  getNestedGo default (.tdict kvs) path

/-- `TomlDict.get_nested` on the receiver with a dotted-string path. -/
def getNestedStr (kvs : List (String × PyVal)) (path : String)
    (default : PyVal := .pnone) (separator : String := ".") : PyVal :=
  getNestedGo default (.tdict kvs) (pySplit path separator)

mutual

/-- Embeds `_flatten_recursive` inside `TomlDict.flatten`
(src/tomly/__init__.py:146-167): dicts recurse per key with a
separator-joined path, a non-empty list whose FIRST element is a dict
recurses per element with an `[i]` suffix, anything else lands in the
result dict under the current key. -/
def flattenGo (sep : String) : PyVal → String → List (String × PyVal) → List (String × PyVal)
  | .pdict kvs, key, acc => flattenFields sep kvs key acc
  | .tdict kvs, key, acc => flattenFields sep kvs key acc
  | .plist [], key, acc => pset acc key (.plist [])
  | .plist (x :: xs), key, acc =>
    if pyIsDict x then flattenElems sep (x :: xs) 0 key acc
    else pset acc key (.plist (x :: xs))
  | v, key, acc => pset acc key v

def flattenFields (sep : String) :
    List (String × PyVal) → String → List (String × PyVal) → List (String × PyVal)
  | [], _, acc => acc
  | (k, v) :: rest, key, acc =>
    flattenFields sep rest key (flattenGo sep v (if key = "" then k else key ++ sep ++ k) acc)

def flattenElems (sep : String) :
    List PyVal → Nat → String → List (String × PyVal) → List (String × PyVal)
  | [], _, _, acc => acc
  | x :: xs, i, key, acc =>
    flattenElems sep xs (i + 1) key (flattenGo sep x (key ++ "[" ++ strOf (natToChars i) ++ "]") acc)

end

/-- Embeds `TomlDict.flatten` (src/tomly/__init__.py:146-167) on the
receiver's items. -/
def flatten (kvs : List (String × PyVal)) (separator : String := ".")
    (parentKey : String := "") : List (String × PyVal) :=
  flattenGo separator (.tdict kvs) parentKey []

/-- Every dict reachable inside the value — in dict values and list elements
at any depth — is a `TomlDict`, never a plain dict. -/
def NoRawDict : PyVal → Prop
  | .pdict _ => False
  | .tdict kvs => ∀ kv ∈ kvs, NoRawDict kv.2
  | .plist xs => ∀ x ∈ xs, NoRawDict x
  | _ => True
decreasing_by
  · rename_i hkv
    have h1 := List.sizeOf_lt_of_mem hkv
    have h2 : sizeOf kv.2 < sizeOf kv := by
      obtain ⟨a, b⟩ := kv
      simp
    simp
    omega
  · have := List.sizeOf_lt_of_mem (by assumption)
    simp
    omega

/-- Outside-world data as the `TomlDict` API can receive it: plain dicts,
lists and scalars, in which any embedded `TomlDict` already satisfies the
wrapping invariant (`_wrap` returns an existing `TomlDict` unchanged, so the
invariant cannot be manufactured for it). -/
def CleanVal : PyVal → Prop
  | .pdict kvs => ∀ kv ∈ kvs, CleanVal kv.2
  | .tdict kvs => ∀ kv ∈ kvs, NoRawDict kv.2
  | .plist xs => ∀ x ∈ xs, CleanVal x
  | _ => True
decreasing_by
  · rename_i hkv
    have h1 := List.sizeOf_lt_of_mem hkv
    have h2 : sizeOf kv.2 < sizeOf kv := by
      obtain ⟨a, b⟩ := kv
      simp
    simp
    omega
  · have := List.sizeOf_lt_of_mem (by assumption)
    simp
    omega

/-- Built only from plain dicts, lists and scalars: no `TomlDict` anywhere. -/
def Plain : PyVal → Prop
  | .tdict _ => False
  | .pdict kvs => ∀ kv ∈ kvs, Plain kv.2
  | .plist xs => ∀ x ∈ xs, Plain x
  | _ => True
decreasing_by
  · rename_i hkv
    have h1 := List.sizeOf_lt_of_mem hkv
    have h2 : sizeOf kv.2 < sizeOf kv := by
      obtain ⟨a, b⟩ := kv
      simp
    simp
    omega
  · have := List.sizeOf_lt_of_mem (by assumption)
    simp
    omega

/-! ## Heap model for the purity of `dumps`

Modelled from the spec: "This two-pass substitution must be a pure
transform: it never mutates the caller's original tree, returning a derived
copy" (spec §4.4).  Python mutation is object-level, so the caller's tree is
modelled as dict objects living in an addressed heap; the render-side
substitution pass builds its derived copy through fresh allocations, and the
claim is that the cells existing before the call — hence the tree the caller
can read — are unchanged after it. -/

inductive HVal where
  | href (a : Nat)
  | hstr (s : String)
  | hint (n : Int)
  | hbool (b : Bool)
  | hnone
  | hlist (xs : List HVal)

structure Heap where
  cells : List (Nat × List (String × HVal))
  next : Nat

def lookCells : List (Nat × List (String × HVal)) → Nat → Option (List (String × HVal))
  | [], _ => none
  | c :: rest, a => if c.1 = a then some c.2 else lookCells rest a

def hlookup (h : Heap) (a : Nat) : Option (List (String × HVal)) :=
  lookCells h.cells a

/-- Allocate a fresh dict object at the next unused address. -/
def halloc (h : Heap) (obj : List (String × HVal)) : Heap × Nat :=
  (⟨(h.next, obj) :: h.cells, h.next + 1⟩, h.next)

mutual

/-- Modelled from the spec: the render-side `none_value` pass as a heap
computation — walk the caller's tree, replacing every `None` with the
sentinel string and copying every dict into a freshly allocated object,
never writing to an existing address.  Fuel bounds the dereferencing depth
(Python object graphs may be cyclic). -/
def copySubstV (s : String) : Nat → Heap → HVal → Option (HVal × Heap)
  | 0, _, _ => none
  | fuel + 1, h, v =>
    match v with
    | .href a =>
      (hlookup h a).bind (fun obj =>
        (copySubstFields s fuel h obj).map (fun pr =>
          let al := halloc pr.2 pr.1
          (.href al.2, al.1)))
    | .hnone => some (.hstr s, h)
    | .hlist xs => (copySubstList s fuel h xs).map (fun pr => (.hlist pr.1, pr.2))
    | v => some (v, h)

def copySubstList (s : String) : Nat → Heap → List HVal → Option (List HVal × Heap)
  | 0, _, _ => none
  | _ + 1, h, [] => some ([], h)
  | fuel + 1, h, x :: xs =>
    (copySubstV s fuel h x).bind (fun pr =>
      (copySubstList s fuel pr.2 xs).map (fun pr2 => (pr.1 :: pr2.1, pr2.2)))

def copySubstFields (s : String) :
    Nat → Heap → List (String × HVal) → Option (List (String × HVal) × Heap)
  | 0, _, _ => none
  | _ + 1, h, [] => some ([], h)
  | fuel + 1, h, (k, v) :: kvs =>
    (copySubstV s fuel h v).bind (fun pr =>
      (copySubstFields s fuel pr.2 kvs).map (fun pr2 => ((k, pr.1) :: pr2.1, pr2.2)))

end

mutual

/-- Read the value tree rooted at a heap value into the codec value model
(dict objects become tables). -/
def readVal : Nat → Heap → HVal → Option Value
  | 0, _, _ => none
  | fuel + 1, h, v =>
    match v with
    | .href a =>
      (hlookup h a).bind (fun obj => (readFields fuel h obj).map .table)
    | .hstr s => some (.str s)
    | .hint n => some (.int n)
    | .hbool b => some (.bool b)
    | .hnone => some .null
    | .hlist xs => (readList fuel h xs).map .arr

def readList : Nat → Heap → List HVal → Option (List Value)
  | 0, _, _ => none
  | _ + 1, _, [] => some []
  | fuel + 1, h, x :: xs =>
    (readVal fuel h x).bind (fun v => (readList fuel h xs).map (fun vs => v :: vs))

def readFields : Nat → Heap → List (String × HVal) → Option (List (String × Value))
  | 0, _, _ => none
  | _ + 1, _, [] => some []
  | fuel + 1, h, (k, v) :: kvs =>
    (readVal fuel h v).bind (fun w => (readFields fuel h kvs).map (fun ws => (k, w) :: ws))

end

/-- Every reference occurring in the value points below `n`. -/
def RefsBelow (n : Nat) : HVal → Prop
  | .href a => a < n
  | .hlist xs => ∀ x ∈ xs, RefsBelow n x
  | _ => True
decreasing_by
  have := List.sizeOf_lt_of_mem (by assumption)
  simp
  omega

def FieldsRefsBelow (n : Nat) (kvs : List (String × HVal)) : Prop :=
  ∀ kv ∈ kvs, RefsBelow n kv.2

/-- Every object stored in the heap only references allocated addresses. -/
def Heap.Closed (h : Heap) : Prop :=
  ∀ c ∈ h.cells, FieldsRefsBelow h.next c.2

/-- The effect of a `dumps` call on the heap holding the caller's `obj`:
the facade's substitution pass produces a derived copy (for the configured
sentinel), the serializer then renders the copy; the resulting heap is
returned together with the serializer's outcome. -/
def dumpsHeap (obj : HVal) (h : Heap) (fuel : Nat) (pretty : Bool)
    (noneValue : Option String) : Option ((Except SerializeError String) × Heap) :=
  match noneValue with
  | none =>
    (readVal fuel h obj).bind (fun t =>
      match t with
      | .table fs => some (rtomlSerialize fs pretty, h)
      | _ => none)
  | some sv =>
    (copySubstV sv fuel h obj).bind (fun pr =>
      (readVal fuel pr.2 pr.1).bind (fun t =>
        match t with
        | .table fs => some (rtomlSerialize fs pretty, pr.2)
        | _ => none))

/-! ## Codec claims -/

theorem substTableCancel (s : String) (t : Table) (h : ∀ kv ∈ t, SentinelFree s kv.2) :
    substTableStrToNull s (substTableNullToStr s t) = t := by
  unfold substTableStrToNull substTableNullToStr
  rw [List.map_map]
  have hpt : ∀ kv ∈ t,
      ((fun kv => (kv.1, substStrToNull s kv.2)) ∘
        (fun kv => (kv.1, substNullToStr s kv.2))) kv = kv := by
    intro kv hkv
    have := substCancel s kv.2 (h kv hkv)
    simp [this]
  rw [List.map_congr_left hpt]
  simp

/-- C1.  The sentinel round-trip law as claimed — `loads (dumps t)` with the
same sentinel returns `t` for EVERY tree `t` — fails when `t` already
contains an ordinary string equal to the sentinel; it holds for all
sentinel-free trees.  The hypothesis `hrt` is the codec's own Round-trip law
(spec §8) instantiated at the rendered document; `hser` fixes `txt` as the
output of `dumps`. -/
theorem loads_dumps_sentinel_roundtrip (t : Table) (s : String) (pretty : Bool) (txt : String)
    (hfree : ∀ kv ∈ t, SentinelFree s kv.2)
    (_hser : dumps t pretty (some s) = .ok txt)
    (hrt : rtomlParse txt = .ok (substTableNullToStr s t)) :
    loads txt (some s) = .ok t := by
  show rtomlLoads txt (some s) = .ok t
  unfold rtomlLoads
  rw [hrt]
  show Except.ok (substTableStrToNull s (substTableNullToStr s t)) = _
  rw [substTableCancel s t hfree]

theorem loads_dumps_sentinel_roundtrip_witness :
    loads "a = \"nil\"\nb = \"x\"\n" (some "nil") = .ok [("a", Value.null), ("b", Value.str "x")] :=
  loads_dumps_sentinel_roundtrip [("a", Value.null), ("b", Value.str "x")] "nil" false
    "a = \"nil\"\nb = \"x\"\n"
    (by
      intro kv hkv
      simp at hkv
      rcases hkv with h | h <;> subst h <;> simp [SentinelFree])
    rfl rfl

/-- C1, counterexample.  With sentinel `"null"`, the tree `{a: "null"}`
renders to `a = "null"` and re-parses to `{a: Null}`, not to itself — the
sentinel substitution captures the ordinary string. -/
theorem sentinel_roundtrip_cex :
    dumps [("a", Value.str "null")] false (some "null") = .ok "a = \"null\"\n"
    ∧ loads "a = \"null\"\n" (some "null") = .ok [("a", Value.null)]
    ∧ Value.str "null" ≠ Value.null :=
  ⟨rfl, rfl, by simp⟩

/-- C2.  The `none_value` defaults differ by direction: `loads`/`load` leave
the sentinel unconfigured (so a matching string literal stays an ordinary
string), while `dumps`/`dump` default it to `"null"` (so internal nulls are
emitted as the TOML string `"null"`). -/
theorem none_value_defaults :
    (∀ t, loads t = rtomlLoads t none)
    ∧ (∀ src, load src = load src none utf8Encoding)
    ∧ (∀ obj p, dumps obj p = rtomlDumps obj p (some "null"))
    ∧ (∀ obj f p, dump obj f p = dump obj f p (some "null") utf8Encoding)
    ∧ (∀ t, rtomlLoads t none = rtomlParse t)
    ∧ loads "a = \"null\"" = .ok [("a", Value.str "null")]
    ∧ loads "a = \"null\"" (some "null") = .ok [("a", Value.null)]
    ∧ dumps [("a", Value.null)] = .ok "a = \"null\"\n"
    ∧ dumps [("a", Value.null)] false none = .error .nullNotRepresentable :=
  ⟨fun _ => rfl, fun _ => rfl, fun _ _ => rfl, fun _ _ _ => rfl, fun _ => rfl,
    rfl, rfl, rfl, rfl⟩

/-- C4 (amended).  `load` accepts a filesystem path, a text stream, a binary
stream (decoded with the encoding parameter) or a raw TOML string, and each
accepted kind reduces to `loads` on the corresponding decoded text.  A raw
bytes buffer is NOT decoded: it falls through the dispatch to the codec,
which accepts only `str`. -/
theorem load_dispatch (bs : List Nat) (nv : Option String) (enc : Encoding) (text : String)
    (hdec : enc.decode bs = some text) :
    load (.path bs) nv enc = (loads text nv).mapError LoadError.parse
    ∧ load (.binaryStream bs) nv enc = (loads text nv).mapError LoadError.parse
    ∧ (∀ t, load (.textStream t) nv enc = (loads t nv).mapError LoadError.parse)
    ∧ (∀ t, load (.rawStr t) nv enc = (loads t nv).mapError LoadError.parse) := by
  refine ⟨?_, ?_, fun _ => rfl, fun _ => rfl⟩ <;> simp [load, hdec]

theorem load_dispatch_witness :
    utf8Encoding.decode (utf8Encode "a = 1") = some "a = 1"
    ∧ load (.path (utf8Encode "a = 1")) none utf8Encoding
        = (loads "a = 1" none).mapError LoadError.parse :=
  ⟨rfl, (load_dispatch (utf8Encode "a = 1") none utf8Encoding "a = 1" rfl).1⟩

/-- C4, counterexample.  A raw bytes buffer holding valid UTF-8 TOML is
rejected with a type error instead of being decoded and parsed, although
`loads` accepts the decoded text. -/
theorem load_raw_bytes_cex :
    load (.rawBytes (utf8Encode "a = 1")) none utf8Encoding = .error .invalidTomlType
    ∧ utf8Encoding.decode (utf8Encode "a = 1") = some "a = 1"
    ∧ loads "a = 1" = .ok [("a", Value.int 1)] :=
  ⟨rfl, rfl, rfl⟩

/-- C5.  A successful `dump` returns the count of units written: characters
(`len(s)`) for a Path or text-stream destination, bytes (after encoding)
for a binary-stream destination. -/
theorem dump_returns_count (obj : Table) (pretty : Bool) (nv : Option String)
    (enc : Encoding) (s : String) (hs : dumps obj pretty nv = .ok s) :
    dump obj .path pretty nv enc = .ok (s.length, .text s)
    ∧ dump obj .textStream pretty nv enc = .ok (s.length, .text s)
    ∧ dump obj .binaryStream pretty nv enc = .ok ((enc.encode s).length, .bytes (enc.encode s)) := by
  unfold dump
  rw [hs]
  exact ⟨rfl, rfl, rfl⟩

theorem dump_returns_count_witness :
    dump [("a", Value.int 1)] Dest.path false (some "null") utf8Encoding
      = .ok ("a = 1\n".length, Written.text "a = 1\n")
    ∧ dump [("a", Value.int 1)] Dest.binaryStream false (some "null") utf8Encoding
      = .ok ((utf8Encoding.encode "a = 1\n").length, Written.bytes (utf8Encoding.encode "a = 1\n")) :=
  ⟨(dump_returns_count [("a", Value.int 1)] false (some "null") utf8Encoding "a = 1\n" rfl).1,
   (dump_returns_count [("a", Value.int 1)] false (some "null") utf8Encoding "a = 1\n" rfl).2.2⟩

/-- C6.  Re-declaring a key is a parse error, not a silent overwrite: both
the duplicate assignment `a = 1\na = 2` and the duplicate table header
`[x]\n[x]` fail, and `insertAt` rejects any key already present in the
target table.  The `Except` result carries no table on error: no partial
tree is returned. -/
theorem duplicate_key_is_error :
    loads "a = 1\na = 2" = .error (.duplicateKey "a")
    ∧ loads "[x]\n[x]" = .error (.duplicateTable ["x"])
    ∧ ∀ (t : Table) (k : String) (w v : Value), dlookup t k = some w →
        insertAt t [] k v = .error (.duplicateKey k) :=
  ⟨rfl, rfl, by
    intro t k w v h
    simp [insertAt, h]⟩

theorem duplicate_key_is_error_witness :
    insertAt [("a", Value.int 1)] [] "a" (Value.int 2) = .error (.duplicateKey "a") :=
  duplicate_key_is_error.2.2 [("a", Value.int 1)] "a" (Value.int 1) (Value.int 2) rfl

/-! ## Wrapper claims -/

theorem plookup_pset_ne (acc : List (String × PyVal)) (k k0 : String) (v : PyVal)
    (h : k0 ≠ k) : plookup (pset acc k v) k0 = plookup acc k0 := by
  induction acc with
  | nil =>
    simp only [pset, plookup]
    rw [if_neg (fun hh => h hh.symm)]
  | cons kv rest ih =>
    simp only [pset]
    by_cases hk : kv.1 = k
    · rw [if_pos hk]
      simp only [plookup]
      rw [if_neg (fun hh => h hh.symm), if_neg (by rw [hk]; exact fun hh => h hh.symm)]
    · rw [if_neg hk]
      simp only [plookup]
      by_cases hk0 : kv.1 = k0
      · rw [if_pos hk0, if_pos hk0]
      · rw [if_neg hk0, if_neg hk0]
        exact ih

theorem plookup_mem (kvs : List (String × PyVal)) (k : String) (v : PyVal)
    (h : plookup kvs k = some v) : (k, v) ∈ kvs := by
  induction kvs with
  | nil => simp [plookup] at h
  | cons kv rest ih =>
    simp only [plookup] at h
    by_cases hk : kv.1 = k
    · rw [if_pos hk] at h
      obtain ⟨k1, v1⟩ := kv
      simp at h hk
      subst hk
      rw [← h]
      exact List.mem_cons_self _ _
    · rw [if_neg hk] at h
      exact List.mem_cons_of_mem _ (ih h)

mutual

theorem flattenGo_plookup (sep : String) (v : PyVal) (K : String)
    (acc : List (String × PyVal)) (k0 : String) (h : ∀ t : String, k0 ≠ K ++ t) :
    plookup (flattenGo sep v K acc) k0 = plookup acc k0 := by
  have hK : k0 ≠ K := fun hh => h "" (by rw [String.append_empty]; exact hh)
  match v with
  | .pstr s => exact plookup_pset_ne acc K k0 _ hK
  | .pint n => exact plookup_pset_ne acc K k0 _ hK
  | .pbool b => exact plookup_pset_ne acc K k0 _ hK
  | .pnone => exact plookup_pset_ne acc K k0 _ hK
  | .plist [] => exact plookup_pset_ne acc K k0 _ hK
  | .plist (x :: xs) =>
    rw [flattenGo]
    by_cases hd : pyIsDict x
    · rw [if_pos hd]
      exact flattenElems_plookup sep (x :: xs) 0 K acc k0
        (fun t heq => h ("[" ++ t) (by rw [heq, String.append_assoc]))
    · rw [if_neg hd]
      exact plookup_pset_ne acc K k0 _ hK
  | .pdict kvs => rw [flattenGo]; exact flattenFields_plookup sep kvs K acc k0 h
  | .tdict kvs => rw [flattenGo]; exact flattenFields_plookup sep kvs K acc k0 h

theorem flattenFields_plookup (sep : String) (kvs : List (String × PyVal)) (K : String)
    (acc : List (String × PyVal)) (k0 : String) (h : ∀ t : String, k0 ≠ K ++ t) :
    plookup (flattenFields sep kvs K acc) k0 = plookup acc k0 := by
  match kvs with
  | [] => rw [flattenFields]
  | (k, v) :: rest =>
    rw [flattenFields]
    by_cases hK : K = ""
    · exfalso
      apply h k0
      rw [hK, String.empty_append]
    · rw [if_neg hK]
      rw [flattenFields_plookup sep rest K _ k0 h]
      exact flattenGo_plookup sep v (K ++ sep ++ k) acc k0
        (fun t heq => h (sep ++ (k ++ t))
          (by rw [heq, String.append_assoc, String.append_assoc]))

theorem flattenElems_plookup (sep : String) (xs : List PyVal) (i : Nat) (K : String)
    (acc : List (String × PyVal)) (k0 : String) (h : ∀ t : String, k0 ≠ (K ++ "[") ++ t) :
    plookup (flattenElems sep xs i K acc) k0 = plookup acc k0 := by
  match xs with
  | [] => rw [flattenElems]
  | x :: rest =>
    rw [flattenElems]
    rw [flattenElems_plookup sep rest (i + 1) K _ k0 h]
    exact flattenGo_plookup sep x (K ++ "[" ++ strOf (natToChars i) ++ "]") acc k0
      (fun t heq => h (strOf (natToChars i) ++ ("]" ++ t))
        (by rw [heq, String.append_assoc, String.append_assoc]))

end

/-- C7.  Flattening a non-empty list whose elements are tables recurses into
each element under the list's key suffixed with the element index in
brackets; the list's own key is never bound to the list itself. -/
theorem flatten_list_of_tables (sep K : String) (xs : List PyVal)
    (acc : List (String × PyVal)) (hne : xs ≠ [])
    (hall : ∀ x ∈ xs, pyIsDict x = true) :
    flattenGo sep (.plist xs) K acc = flattenElems sep xs 0 K acc
    ∧ (∀ (y : PyVal) (rest : List PyVal) (i : Nat) (acc2 : List (String × PyVal)),
        flattenElems sep (y :: rest) i K acc2
          = flattenElems sep rest (i + 1) K
              (flattenGo sep y (K ++ "[" ++ strOf (natToChars i) ++ "]") acc2))
    ∧ plookup (flattenGo sep (.plist xs) K acc) K = plookup acc K := by
  match xs with
  | x :: rest =>
    have hd := hall x (List.mem_cons_self _ _)
    have hb : ∀ t : String, K ≠ (K ++ "[") ++ t := by
      intro t heq
      have hlen := congrArg String.length heq
      have h1 : ("[" : String).length = 1 := rfl
      rw [String.length_append, String.length_append, h1] at hlen
      omega
    refine ⟨by rw [flattenGo, if_pos hd], fun _ _ _ _ => rfl, ?_⟩
    rw [flattenGo, if_pos hd]
    exact flattenElems_plookup sep (x :: rest) 0 K acc K hb

theorem flatten_list_of_tables_witness :
    flattenGo "." (.plist [.tdict [("a", PyVal.pint 1)], .tdict [("a", PyVal.pint 2)]]) "k" []
      = flattenElems "." [.tdict [("a", PyVal.pint 1)], .tdict [("a", PyVal.pint 2)]] 0 "k" []
    ∧ plookup
        (flattenGo "." (.plist [.tdict [("a", PyVal.pint 1)], .tdict [("a", PyVal.pint 2)]]) "k" [])
        "k" = plookup [] "k" :=
  ⟨(flatten_list_of_tables "." "k" [.tdict [("a", PyVal.pint 1)], .tdict [("a", PyVal.pint 2)]] []
      (by simp) (by intro x hx; simp at hx; rcases hx with h | h <;> subst h <;> rfl)).1,
   (flatten_list_of_tables "." "k" [.tdict [("a", PyVal.pint 1)], .tdict [("a", PyVal.pint 2)]] []
      (by simp) (by intro x hx; simp at hx; rcases hx with h | h <;> subst h <;> rfl)).2.2⟩

mutual

theorem wrap_noRawDict (v : PyVal) (h : CleanVal v) : NoRawDict (wrap v) := by
  match v with
  | .pstr s => simp only [wrap, NoRawDict]
  | .pint n => simp only [wrap, NoRawDict]
  | .pbool b => simp only [wrap, NoRawDict]
  | .pnone => simp only [wrap, NoRawDict]
  | .pdict kvs =>
    simp only [CleanVal] at h
    simp only [wrap, NoRawDict]
    exact wrapFields_noRawDict kvs h
  | .tdict kvs =>
    simp only [CleanVal] at h
    simp only [wrap, NoRawDict]
    exact h
  | .plist xs =>
    simp only [CleanVal] at h
    simp only [wrap, NoRawDict]
    exact wrapList_noRawDict xs h

theorem wrapList_noRawDict (xs : List PyVal) (h : ∀ x ∈ xs, CleanVal x) :
    ∀ y ∈ wrapList xs, NoRawDict y := by
  match xs with
  | [] => simp [wrapList]
  | x :: rest =>
    intro y hy
    rw [wrapList] at hy
    rcases List.mem_cons.mp hy with h1 | h2
    · exact h1 ▸ wrap_noRawDict x (h x (List.mem_cons_self _ _))
    · exact wrapList_noRawDict rest (fun z hz => h z (List.mem_cons_of_mem _ hz)) y h2

theorem wrapFields_noRawDict (kvs : List (String × PyVal)) (h : ∀ kv ∈ kvs, CleanVal kv.2) :
    ∀ kv ∈ wrapFields kvs, NoRawDict kv.2 := by
  match kvs with
  | [] => simp [wrapFields]
  | (k, v) :: rest =>
    intro kv hkv
    rw [wrapFields] at hkv
    rcases List.mem_cons.mp hkv with h1 | h2
    · rw [h1]
      exact wrap_noRawDict v (h (k, v) (List.mem_cons_self _ _))
    · exact wrapFields_noRawDict rest (fun z hz => h z (List.mem_cons_of_mem _ hz)) kv h2

end

theorem pset_noRaw (kvs : List (String × PyVal)) (k : String) (v : PyVal)
    (hkvs : ∀ kv ∈ kvs, NoRawDict kv.2) (hv : NoRawDict v) :
    ∀ kv ∈ pset kvs k v, NoRawDict kv.2 := by
  induction kvs with
  | nil =>
    intro kv hkv
    simp only [pset] at hkv
    simp at hkv
    rw [hkv]
    exact hv
  | cons kv0 rest ih =>
    intro kv hkv
    simp only [pset] at hkv
    by_cases hk : kv0.1 = k
    · rw [if_pos hk] at hkv
      rcases List.mem_cons.mp hkv with h1 | h2
      · rw [h1]
        exact hv
      · exact hkvs kv (List.mem_cons_of_mem _ h2)
    · rw [if_neg hk] at hkv
      rcases List.mem_cons.mp hkv with h1 | h2
      · exact h1 ▸ hkvs kv0 (List.mem_cons_self _ _)
      · exact ih (fun z hz => hkvs z (List.mem_cons_of_mem _ hz)) kv h2

theorem tdictSetitem_noRaw (kvs : List (String × PyVal)) (k : String) (v : PyVal)
    (hkvs : ∀ kv ∈ kvs, NoRawDict kv.2) (hv : CleanVal v) :
    ∀ kv ∈ tdictSetitem kvs k v, NoRawDict kv.2 :=
  pset_noRaw kvs k (wrap v) hkvs (wrap_noRawDict v hv)

theorem setNestedGo_noRaw (path : List String) :
    ∀ (kvs : List (String × PyVal)) (v : PyVal) (kvs2 : List (String × PyVal)),
    (∀ kv ∈ kvs, NoRawDict kv.2) → CleanVal v →
    setNestedGo true kvs path v = some kvs2 → ∀ kv ∈ kvs2, NoRawDict kv.2 := by
  match path with
  | [] =>
    intro kvs v kvs2 _ _ hcall
    simp [setNestedGo] at hcall
  | [k] =>
    intro kvs v kvs2 hkvs hv hcall
    simp only [setNestedGo, if_pos] at hcall
    have : kvs2 = tdictSetitem kvs k v := by
      cases hcall
      rfl
    rw [this]
    exact tdictSetitem_noRaw kvs k v hkvs hv
  | k :: k2 :: rest =>
    intro kvs v kvs2 hkvs hv hcall
    simp only [setNestedGo] at hcall
    cases hl : plookup kvs k with
    | none =>
      rw [hl] at hcall
      simp only [Option.map_eq_some'] at hcall
      obtain ⟨c2, hc2, heq⟩ := hcall
      rw [← heq]
      have hrec := setNestedGo_noRaw (k2 :: rest) [] v c2 (by simp) hv hc2
      exact tdictSetitem_noRaw kvs k (.tdict c2) hkvs
        (by simp only [CleanVal]; exact hrec)
    | some c =>
      rw [hl] at hcall
      have hcmem := plookup_mem kvs k c hl
      have hcnr : NoRawDict c := hkvs (k, c) hcmem
      match c with
      | .pdict ckvs => simp only [NoRawDict] at hcnr
      | .tdict ckvs =>
        simp only [Option.map_eq_some'] at hcall
        obtain ⟨c2, hc2, heq⟩ := hcall
        rw [← heq]
        simp only [NoRawDict] at hcnr
        have hrec := setNestedGo_noRaw (k2 :: rest) ckvs v c2 hcnr hv hc2
        exact pset_noRaw kvs k (.tdict c2) hkvs (by simp only [NoRawDict]; exact hrec)
      | .pstr s =>
        simp only [Option.map_eq_some'] at hcall
        obtain ⟨c2, hc2, heq⟩ := hcall
        rw [← heq]
        have hrec := setNestedGo_noRaw (k2 :: rest) [] v c2 (by simp) hv hc2
        exact tdictSetitem_noRaw kvs k (.tdict c2) hkvs
          (by simp only [CleanVal]; exact hrec)
      | .pint n =>
        simp only [Option.map_eq_some'] at hcall
        obtain ⟨c2, hc2, heq⟩ := hcall
        rw [← heq]
        have hrec := setNestedGo_noRaw (k2 :: rest) [] v c2 (by simp) hv hc2
        exact tdictSetitem_noRaw kvs k (.tdict c2) hkvs
          (by simp only [CleanVal]; exact hrec)
      | .pbool b =>
        simp only [Option.map_eq_some'] at hcall
        obtain ⟨c2, hc2, heq⟩ := hcall
        rw [← heq]
        have hrec := setNestedGo_noRaw (k2 :: rest) [] v c2 (by simp) hv hc2
        exact tdictSetitem_noRaw kvs k (.tdict c2) hkvs
          (by simp only [CleanVal]; exact hrec)
      | .pnone =>
        simp only [Option.map_eq_some'] at hcall
        obtain ⟨c2, hc2, heq⟩ := hcall
        rw [← heq]
        have hrec := setNestedGo_noRaw (k2 :: rest) [] v c2 (by simp) hv hc2
        exact tdictSetitem_noRaw kvs k (.tdict c2) hkvs
          (by simp only [CleanVal]; exact hrec)
      | .plist xs =>
        simp only [Option.map_eq_some'] at hcall
        obtain ⟨c2, hc2, heq⟩ := hcall
        rw [← heq]
        have hrec := setNestedGo_noRaw (k2 :: rest) [] v c2 (by simp) hv hc2
        exact tdictSetitem_noRaw kvs k (.tdict c2) hkvs
          (by simp only [CleanVal]; exact hrec)

/-- C8.  The wrapping invariant: constructing a `TomlDict` and every
insertion path of the API — `__init__`, `__setitem__`, attribute assignment
through `__setattr__`, `set_nested` — produce dictionaries in which every
reachable dict value, including dicts nested in lists at any depth, is a
`TomlDict` (`NoRawDict`), provided incoming values are outside-world data in
the `CleanVal` sense (any `TomlDict` already embedded in them satisfies the
invariant, since `_wrap` returns existing `TomlDict`s unchanged). -/
theorem tomldict_wrap_invariant :
    (∀ kvs, (∀ kv ∈ kvs, CleanVal kv.2) → NoRawDict (tdictInit kvs))
    ∧ (∀ kvs k v, (∀ kv ∈ kvs, NoRawDict kv.2) → CleanVal v →
        NoRawDict (.tdict (tdictSetitem kvs k v)))
    ∧ (∀ kvs k v kvs2, (∀ kv ∈ kvs, NoRawDict kv.2) → CleanVal v →
        tdictSetattr kvs k v = .dict kvs2 → NoRawDict (.tdict kvs2))
    ∧ (∀ kvs path v kvs2, (∀ kv ∈ kvs, NoRawDict kv.2) → CleanVal v →
        setNestedKeys kvs path v = some kvs2 → NoRawDict (.tdict kvs2)) := by
  refine ⟨?_, ?_, ?_, ?_⟩
  · intro kvs h
    simp only [tdictInit, NoRawDict]
    exact wrapFields_noRawDict kvs h
  · intro kvs k v hkvs hv
    simp only [NoRawDict]
    exact tdictSetitem_noRaw kvs k v hkvs hv
  · intro kvs k v kvs2 hkvs hv hcall
    simp only [tdictSetattr] at hcall
    by_cases hu : startsWithUnderscore k
    · rw [if_pos hu] at hcall
      cases hcall
    · rw [if_neg hu] at hcall
      cases hcall
      simp only [NoRawDict]
      exact tdictSetitem_noRaw kvs k v hkvs hv
  · intro kvs path v kvs2 hkvs hv hcall
    simp only [NoRawDict]
    exact setNestedGo_noRaw path kvs v kvs2 hkvs hv hcall

theorem tomldict_wrap_invariant_witness :
    NoRawDict (tdictInit [("a", PyVal.pdict [("b", PyVal.plist [PyVal.pdict []])])])
    ∧ NoRawDict (.tdict (tdictSetitem [("x", PyVal.pint 1)] "d" (PyVal.pdict [])))
    ∧ ∀ kvs2, setNestedKeys [] ["a", "b"] (PyVal.pdict []) = some kvs2 →
        NoRawDict (.tdict kvs2) :=
  ⟨tomldict_wrap_invariant.1 _ (by
      intro kv hkv
      simp at hkv
      rw [hkv]
      simp [CleanVal]),
   tomldict_wrap_invariant.2.1 _ "d" _ (by
      intro kv hkv
      simp at hkv
      rw [hkv]
      simp [NoRawDict])
     (by simp [CleanVal]),
   fun kvs2 h => tomldict_wrap_invariant.2.2.2 [] ["a", "b"] (PyVal.pdict []) kvs2
     (by simp) (by simp [CleanVal]) h⟩

/-- Follows the claim's words (for comparison with `getNestedGo`): the value
reached along a path when every segment is a key of a dict along the way;
`none` when a segment is missing or an intermediate value is not a dict. -/
def reachedAt : PyVal → List String → Option PyVal
  | v, [] => some v
  | v, k :: ks =>
    match v with
    | .pdict kvs => (plookup kvs k).bind (fun c => reachedAt c ks)
    | .tdict kvs => (plookup kvs k).bind (fun c => reachedAt c ks)
    | _ => none

theorem getNestedGo_spec (default : PyVal) (path : List String) :
    ∀ current : PyVal,
    (∀ v, reachedAt current path = some v → getNestedGo default current path = v)
    ∧ (reachedAt current path = none → getNestedGo default current path = default) := by
  induction path with
  | nil =>
    intro current
    constructor
    · intro v hv
      simp only [reachedAt, Option.some_inj] at hv
      rw [← hv]
      rfl
    · intro hv
      simp [reachedAt] at hv
  | cons k ks ih =>
    intro current
    match current with
    | .pdict kvs =>
      cases hl : plookup kvs k with
      | some c =>
        constructor
        · intro v hv
          simp only [reachedAt, hl, Option.some_bind] at hv
          simp only [getNestedGo, pyIsDict, pyFields, hl, if_true]
          exact (ih c).1 v hv
        · intro hv
          simp only [reachedAt, hl, Option.some_bind] at hv
          simp only [getNestedGo, pyIsDict, pyFields, hl, if_true]
          exact (ih c).2 hv
      | none =>
        constructor
        · intro v hv
          simp [reachedAt, hl] at hv
        · intro _
          simp only [getNestedGo, pyIsDict, pyFields, hl, if_true]
    | .tdict kvs =>
      cases hl : plookup kvs k with
      | some c =>
        constructor
        · intro v hv
          simp only [reachedAt, hl, Option.some_bind] at hv
          simp only [getNestedGo, pyIsDict, pyFields, hl, if_true]
          exact (ih c).1 v hv
        · intro hv
          simp only [reachedAt, hl, Option.some_bind] at hv
          simp only [getNestedGo, pyIsDict, pyFields, hl, if_true]
          exact (ih c).2 hv
      | none =>
        constructor
        · intro v hv
          simp [reachedAt, hl] at hv
        · intro _
          simp only [getNestedGo, pyIsDict, pyFields, hl, if_true]
    | .pstr s =>
      exact ⟨fun v hv => by simp [reachedAt] at hv, fun _ => rfl⟩
    | .pint n =>
      exact ⟨fun v hv => by simp [reachedAt] at hv, fun _ => rfl⟩
    | .pbool b =>
      exact ⟨fun v hv => by simp [reachedAt] at hv, fun _ => rfl⟩
    | .pnone =>
      exact ⟨fun v hv => by simp [reachedAt] at hv, fun _ => rfl⟩
    | .plist xs =>
      exact ⟨fun v hv => by simp [reachedAt] at hv, fun _ => rfl⟩

/-- C9.  `get_nested` is total — the embedding returns a value on every
input, with no error path: it returns the receiver for an empty key
sequence, the reached value when every segment steps through a dict, the
default as soon as a segment is missing or the current value is not a dict,
and the dotted-string form is the key-sequence form on the split path. -/
theorem get_nested_total :
    (∀ kvs (default : PyVal), getNestedKeys kvs [] default = .tdict kvs)
    ∧ (∀ kvs path (default : PyVal) v, reachedAt (.tdict kvs) path = some v →
        getNestedKeys kvs path default = v)
    ∧ (∀ kvs path (default : PyVal), reachedAt (.tdict kvs) path = none →
        getNestedKeys kvs path default = default)
    ∧ (∀ kvs path (default : PyVal) sep, getNestedStr kvs path default sep
        = getNestedGo default (.tdict kvs) (pySplit path sep)) :=
  ⟨fun _ _ => rfl,
   fun kvs path default v hv => (getNestedGo_spec default path (.tdict kvs)).1 v hv,
   fun kvs path default hv => (getNestedGo_spec default path (.tdict kvs)).2 hv,
   fun _ _ _ _ => rfl⟩

theorem get_nested_total_witness :
    getNestedKeys [("a", PyVal.tdict [("b", PyVal.pint 7)])] ["a", "b"] .pnone = PyVal.pint 7
    ∧ getNestedKeys [("a", PyVal.tdict [("b", PyVal.pint 7)])] ["a", "z"] (PyVal.pstr "d")
        = PyVal.pstr "d" :=
  ⟨get_nested_total.2.1 [("a", PyVal.tdict [("b", PyVal.pint 7)])] ["a", "b"] .pnone
     (PyVal.pint 7) rfl,
   get_nested_total.2.2.1 [("a", PyVal.tdict [("b", PyVal.pint 7)])] ["a", "z"]
     (PyVal.pstr "d") rfl⟩

mutual

theorem unwrap_wrap (v : PyVal) (h : Plain v) : unwrap (wrap v) = v := by
  match v with
  | .pstr s => rfl
  | .pint n => rfl
  | .pbool b => rfl
  | .pnone => rfl
  | .tdict kvs => simp only [Plain] at h
  | .pdict kvs =>
    simp only [Plain] at h
    show PyVal.pdict (unwrapFields (wrapFields kvs)) = .pdict kvs
    rw [unwrapFields_wrapFields kvs h]
  | .plist xs =>
    simp only [Plain] at h
    show PyVal.plist (unwrapList (wrapList xs)) = .plist xs
    rw [unwrapList_wrapList xs h]

theorem unwrapList_wrapList (xs : List PyVal) (h : ∀ x ∈ xs, Plain x) :
    unwrapList (wrapList xs) = xs := by
  match xs with
  | [] => rfl
  | x :: rest =>
    show unwrap (wrap x) :: unwrapList (wrapList rest) = x :: rest
    rw [unwrap_wrap x (h x (List.mem_cons_self _ _)),
      unwrapList_wrapList rest (fun z hz => h z (List.mem_cons_of_mem _ hz))]

theorem unwrapFields_wrapFields (kvs : List (String × PyVal)) (h : ∀ kv ∈ kvs, Plain kv.2) :
    unwrapFields (wrapFields kvs) = kvs := by
  match kvs with
  | [] => rfl
  | (k, v) :: rest =>
    show (k, unwrap (wrap v)) :: unwrapFields (wrapFields rest) = (k, v) :: rest
    rw [unwrap_wrap v (h (k, v) (List.mem_cons_self _ _)),
      unwrapFields_wrapFields rest (fun z hz => h z (List.mem_cons_of_mem _ hz))]

end

/-- C10.  `TomlDict(d).to_dict() == d` for plain data: initializing from the
items of a plain dict (`tdictInit`, whose stored fields are
`wrapFields kvs`) and converting back with `to_dict` recovers exactly the
original items, and the result is plain — it contains no `TomlDict` at any
depth. -/
theorem to_dict_inverts_init (kvs : List (String × PyVal))
    (h : ∀ kv ∈ kvs, Plain kv.2) :
    toDict (wrapFields kvs) = .pdict kvs ∧ Plain (toDict (wrapFields kvs)) := by
  have h1 : toDict (wrapFields kvs) = .pdict kvs :=
    unwrap_wrap (.pdict kvs) (by simp only [Plain]; exact h)
  refine ⟨h1, ?_⟩
  rw [h1]
  simp only [Plain]
  exact h

theorem to_dict_inverts_init_witness :
    toDict (wrapFields [("a", PyVal.pdict [("b", PyVal.pint 1)]), ("c", PyVal.plist [PyVal.pint 2])])
      = PyVal.pdict [("a", PyVal.pdict [("b", PyVal.pint 1)]), ("c", PyVal.plist [PyVal.pint 2])] :=
  (to_dict_inverts_init
    [("a", PyVal.pdict [("b", PyVal.pint 1)]), ("c", PyVal.plist [PyVal.pint 2])]
    (by
      intro kv hkv
      simp at hkv
      rcases hkv with h | h <;> rw [h] <;> simp [Plain])).1

/-! ## The mutation claim -/

/-- The second heap contains the first: allocation has only moved forward
and every previously allocated address holds the same object. -/
def HeapExtends (h h2 : Heap) : Prop :=
  h.next ≤ h2.next ∧ ∀ a, a < h.next → hlookup h2 a = hlookup h a

theorem HeapExtends.rfl (h : Heap) : HeapExtends h h := ⟨le_refl _, fun _ _ => Eq.refl _⟩

theorem HeapExtends.trans {h h2 h3 : Heap} (h12 : HeapExtends h h2) (h23 : HeapExtends h2 h3) :
    HeapExtends h h3 := by
  refine ⟨le_trans h12.1 h23.1, fun a ha => ?_⟩
  rw [h23.2 a (lt_of_lt_of_le ha h12.1), h12.2 a ha]

theorem halloc_extends (h : Heap) (obj : List (String × HVal)) :
    HeapExtends h (halloc h obj).1 := by
  refine ⟨by simp [halloc], fun a ha => ?_⟩
  show lookCells ((h.next, obj) :: h.cells) a = lookCells h.cells a
  rw [lookCells, if_neg (by omega)]

theorem copySubst_extends (s : String) (fuel : Nat) :
    (∀ h v pr, copySubstV s fuel h v = some pr → HeapExtends h pr.2)
    ∧ (∀ h xs pr, copySubstList s fuel h xs = some pr → HeapExtends h pr.2)
    ∧ (∀ h kvs pr, copySubstFields s fuel h kvs = some pr → HeapExtends h pr.2) := by
  induction fuel with
  | zero =>
    refine ⟨?_, ?_, ?_⟩ <;>
      · intro h x pr hc
        simp [copySubstV, copySubstList, copySubstFields] at hc
  | succ fuel ih =>
    obtain ⟨ihV, ihL, ihF⟩ := ih
    refine ⟨?_, ?_, ?_⟩
    · intro h v pr hc
      match v with
      | .href a =>
        simp only [copySubstV] at hc
        cases hla : hlookup h a with
        | none => rw [hla] at hc; simp at hc
        | some obj =>
          rw [hla] at hc
          simp only [Option.some_bind] at hc
          cases hcf : copySubstFields s fuel h obj with
          | none => rw [hcf] at hc; simp at hc
          | some pr2 =>
            rw [hcf] at hc
            simp only [Option.map_some', Option.some_inj] at hc
            have h2 : pr.2 = (halloc pr2.2 pr2.1).1 := by rw [← hc]
            rw [h2]
            exact (ihF h obj pr2 hcf).trans (halloc_extends pr2.2 pr2.1)
      | .hnone =>
        simp only [copySubstV, Option.some_inj] at hc
        rw [← hc]
        exact HeapExtends.rfl h
      | .hstr t =>
        simp only [copySubstV, Option.some_inj] at hc
        rw [← hc]
        exact HeapExtends.rfl h
      | .hint n =>
        simp only [copySubstV, Option.some_inj] at hc
        rw [← hc]
        exact HeapExtends.rfl h
      | .hbool b =>
        simp only [copySubstV, Option.some_inj] at hc
        rw [← hc]
        exact HeapExtends.rfl h
      | .hlist xs =>
        simp only [copySubstV] at hc
        cases hcl : copySubstList s fuel h xs with
        | none => rw [hcl] at hc; simp at hc
        | some pr2 =>
          rw [hcl] at hc
          simp only [Option.map_some', Option.some_inj] at hc
          have h2 : pr.2 = pr2.2 := by rw [← hc]
          rw [h2]
          exact ihL h xs pr2 hcl
    · intro h xs pr hc
      match xs with
      | [] =>
        simp only [copySubstList, Option.some_inj] at hc
        rw [← hc]
        exact HeapExtends.rfl h
      | x :: rest =>
        simp only [copySubstList] at hc
        cases hcv : copySubstV s fuel h x with
        | none => rw [hcv] at hc; simp at hc
        | some pr1 =>
          rw [hcv] at hc
          simp only [Option.some_bind] at hc
          cases hcl : copySubstList s fuel pr1.2 rest with
          | none => rw [hcl] at hc; simp at hc
          | some pr2 =>
            rw [hcl] at hc
            simp only [Option.map_some', Option.some_inj] at hc
            have h2 : pr.2 = pr2.2 := by rw [← hc]
            rw [h2]
            exact (ihV h x pr1 hcv).trans (ihL pr1.2 rest pr2 hcl)
    · intro h kvs pr hc
      match kvs with
      | [] =>
        simp only [copySubstFields, Option.some_inj] at hc
        rw [← hc]
        exact HeapExtends.rfl h
      | (k, v) :: rest =>
        simp only [copySubstFields] at hc
        cases hcv : copySubstV s fuel h v with
        | none => rw [hcv] at hc; simp at hc
        | some pr1 =>
          rw [hcv] at hc
          simp only [Option.some_bind] at hc
          cases hcf : copySubstFields s fuel pr1.2 rest with
          | none => rw [hcf] at hc; simp at hc
          | some pr2 =>
            rw [hcf] at hc
            simp only [Option.map_some', Option.some_inj] at hc
            have h2 : pr.2 = pr2.2 := by rw [← hc]
            rw [h2]
            exact (ihV h v pr1 hcv).trans (ihF pr1.2 rest pr2 hcf)

theorem lookCells_mem (cells : List (Nat × List (String × HVal))) (a : Nat)
    (obj : List (String × HVal)) (h : lookCells cells a = some obj) : (a, obj) ∈ cells := by
  induction cells with
  | nil => simp [lookCells] at h
  | cons c rest ih =>
    simp only [lookCells] at h
    by_cases hc : c.1 = a
    · rw [if_pos hc] at h
      obtain ⟨a1, o1⟩ := c
      simp at h hc
      subst hc
      rw [← h]
      exact List.mem_cons_self _ _
    · rw [if_neg hc] at h
      exact List.mem_cons_of_mem _ (ih h)

theorem readVal_agree (h h2 : Heap) (hcl : Heap.Closed h)
    (hag : ∀ a, a < h.next → hlookup h2 a = hlookup h a) (fuel : Nat) :
    (∀ v, RefsBelow h.next v → readVal fuel h2 v = readVal fuel h v)
    ∧ (∀ xs, (∀ x ∈ xs, RefsBelow h.next x) → readList fuel h2 xs = readList fuel h xs)
    ∧ (∀ kvs, FieldsRefsBelow h.next kvs → readFields fuel h2 kvs = readFields fuel h kvs) := by
  induction fuel with
  | zero => exact ⟨fun _ _ => rfl, fun _ _ => rfl, fun _ _ => rfl⟩
  | succ fuel ih =>
    obtain ⟨ihV, ihL, ihF⟩ := ih
    refine ⟨?_, ?_, ?_⟩
    · intro v hv
      match v with
      | .href a =>
        simp only [RefsBelow] at hv
        simp only [readVal]
        rw [hag a hv]
        cases hla : hlookup h a with
        | none => rfl
        | some obj =>
          have hobj : FieldsRefsBelow h.next obj :=
            hcl (a, obj) (lookCells_mem h.cells a obj hla)
          simp only [Option.some_bind]
          rw [ihF obj hobj]
      | .hstr t => rfl
      | .hint n => rfl
      | .hbool b => rfl
      | .hnone => rfl
      | .hlist xs =>
        simp only [RefsBelow] at hv
        simp only [readVal]
        rw [ihL xs hv]
    · intro xs hxs
      match xs with
      | [] => rfl
      | x :: rest =>
        simp only [readList]
        rw [ihV x (hxs x (List.mem_cons_self _ _)),
          ihL rest (fun z hz => hxs z (List.mem_cons_of_mem _ hz))]
    · intro kvs hkvs
      match kvs with
      | [] => rfl
      | (k, v) :: rest =>
        simp only [readFields]
        rw [ihV v (hkvs (k, v) (List.mem_cons_self _ _)),
          ihF rest (fun z hz => hkvs z (List.mem_cons_of_mem _ hz))]

/-- C3.  `dumps` never mutates the caller's object: in the heap model of the
substitution-and-serialize pass, every address allocated before the call
still holds the same object afterwards, and reading the caller's tree back
from the resulting heap gives the same value tree as before the call — the
derived copy lives entirely in fresh cells. -/
theorem dumps_does_not_mutate (obj : HVal) (h : Heap) (fuel : Nat) (pretty : Bool)
    (nv : Option String) (out : Except SerializeError String) (h2 : Heap)
    (hcl : Heap.Closed h) (hrefs : RefsBelow h.next obj)
    (hcall : dumpsHeap obj h fuel pretty nv = some (out, h2)) :
    (∀ a, a < h.next → hlookup h2 a = hlookup h a)
    ∧ ∀ rfuel, readVal rfuel h2 obj = readVal rfuel h obj := by
  match nv with
  | none =>
    simp only [dumpsHeap] at hcall
    cases hrv : readVal fuel h obj with
    | none => rw [hrv] at hcall; simp at hcall
    | some t =>
      rw [hrv] at hcall
      simp only [Option.some_bind] at hcall
      match t with
      | .table fs =>
        simp only [Option.some_inj] at hcall
        have hh : h2 = h := congrArg Prod.snd hcall.symm
        rw [hh]
        exact ⟨fun _ _ => Eq.refl _, fun _ => Eq.refl _⟩
      | .str s2 => simp at hcall
      | .int n => simp at hcall
      | .bool b => simp at hcall
      | .null => simp at hcall
      | .arr xs => simp at hcall
  | some sv =>
    simp only [dumpsHeap] at hcall
    cases hcs : copySubstV sv fuel h obj with
    | none => rw [hcs] at hcall; simp at hcall
    | some pr =>
      rw [hcs] at hcall
      simp only [Option.some_bind] at hcall
      have hext := (copySubst_extends sv fuel).1 h obj pr hcs
      have hh : h2 = pr.2 := by
        cases hrv : readVal fuel pr.2 pr.1 with
        | none => rw [hrv] at hcall; simp at hcall
        | some t =>
          rw [hrv] at hcall
          simp only [Option.some_bind] at hcall
          match t with
          | .table fs =>
            simp only [Option.some_inj] at hcall
            exact congrArg Prod.snd hcall.symm
          | .str s2 => simp at hcall
          | .int n => simp at hcall
          | .bool b => simp at hcall
          | .null => simp at hcall
          | .arr xs => simp at hcall
      rw [hh]
      exact ⟨hext.2, fun rfuel => (readVal_agree h pr.2 hcl hext.2 rfuel).1 obj hrefs⟩

theorem dumps_does_not_mutate_witness :
    readVal 5 ⟨[(1, [("k", HVal.hstr "null")]), (0, [("k", HVal.hnone)])], 2⟩ (HVal.href 0)
      = readVal 5 ⟨[(0, [("k", HVal.hnone)])], 1⟩ (HVal.href 0) :=
  (dumps_does_not_mutate (HVal.href 0) ⟨[(0, [("k", HVal.hnone)])], 1⟩ 5 false (some "null")
    (.ok "k = \"null\"\n") ⟨[(1, [("k", HVal.hstr "null")]), (0, [("k", HVal.hnone)])], 2⟩
    (by
      intro c hc
      simp at hc
      rw [hc]
      intro kv hkv
      simp at hkv
      rw [hkv]
      simp [RefsBelow])
    (by simp [RefsBelow])
    rfl).2 5

end Tomly
